import Mathlib

/-
Verification of the XCH limit-order extension (src/src/content.js,
src/src/background.js) against its specification.

Numbers (prices, amounts, budgets) are JS numbers used as exact decimals in
the program; they are embedded as rationals.  The DOM-driven parts (price
scraping, the three interaction steps) enter the model only through their
observable outcomes: a sampled price, a per-stage success or failure, the
optional vault-order reference captured after a fill, and the wall-clock
timestamp recorded in `filledAt`.
-/

namespace XchLimit

/-- Order status as used in content.js: the status field of an order is the
string "pending" or "executed". -/
inductive OrderStatus
  | pending
  | executed
deriving DecidableEq

/-- An order object as created by addOrder (content.js:399) and mutated by
markOrderExecuted (content.js:426).  Fields absent until execution are
modelled as Option. -/
structure Order where
  id : String
  targetPrice : ℚ
  amount : ℚ
  status : OrderStatus
  executedPrice : Option ℚ := none
  filledAt : Option ℕ := none
  vaultOrderId : Option String := none
  vaultOrderUrl : Option String := none
deriving DecidableEq

/-- The vault order reference optionally captured by getLatestVaultOrder
(content.js:507): an order id and a possibly missing details URL. -/
structure VaultRef where
  orderId : String
  detailsUrl : Option String
deriving DecidableEq

/-- getPendingOrders (content.js:447): the orders with status pending. -/
def getPendingOrders (orders : List Order) : List Order :=
  orders.filter (fun o => decide (o.status = OrderStatus.pending))

/-- getExecutedOrders (content.js:451): the orders with status executed. -/
def getExecutedOrders (orders : List Order) : List Order :=
  orders.filter (fun o => decide (o.status = OrderStatus.executed))

/-- The reduce pattern `list.reduce((sum, o) => sum + o.amount, 0)` used by
calculateTotalSpent (content.js:460) and validateBatchExecution
(content.js:485, 703). -/
def sumAmounts (l : List Order) : ℚ :=
  l.foldl (fun sum o => sum + o.amount) 0

/-- calculateTotalSpent (content.js:459): total spent recomputed from the
executed orders. -/
def calculateTotalSpent (orders : List Order) : ℚ :=
  sumAmounts (getExecutedOrders orders)

/-- Specification-side form of the same quantity: the sum of the amount
field over the orders whose status is executed. -/
def executedAmountSum (orders : List Order) : ℚ :=
  ((orders.filter (fun o => decide (o.status = OrderStatus.executed))).map
    Order.amount).sum

/-- The filter predicate of findExecutableOrders (content.js:473): status
pending and currentPrice less than or equal to targetPrice. -/
def isExecutable (currentPrice : ℚ) (o : Order) : Bool :=
  decide (o.status = OrderStatus.pending) && decide (currentPrice ≤ o.targetPrice)

/-- The comparator of the sort at content.js:474,
`(a, b) => a.targetPrice - b.targetPrice`: a before b when the target price
of a is at most that of b. -/
def leTarget (a b : Order) : Prop :=
  a.targetPrice ≤ b.targetPrice

instance : DecidableRel leTarget :=
  fun a b => inferInstanceAs (Decidable (a.targetPrice ≤ b.targetPrice))

instance : IsTotal Order leTarget :=
  ⟨fun a b => le_total a.targetPrice b.targetPrice⟩

instance : IsTrans Order leTarget :=
  ⟨fun _ _ _ hab hbc => le_trans hab hbc⟩

/-- findExecutableOrders (content.js:471): filter the pending orders whose
target the current price has reached, sorted ascending by target price.
Array.prototype.sort is a stable sort (ES2019), embedded here as the stable
insertion sort. -/
def findExecutableOrders (currentPrice : ℚ) (orders : List Order) : List Order :=
  (orders.filter (isExecutable currentPrice)).insertionSort leTarget

/-- The result object `{ orders, totalAmount }` of validateBatchExecution. -/
structure BatchSelection where
  orders : List Order
  totalAmount : ℚ
deriving DecidableEq

/-- The greedy loop of validateBatchExecution (content.js:491-498): walk the
candidates in order, accepting each order exactly when adding its amount
keeps the running total within the remaining budget.  Returns the selected
orders and the final running total. -/
def greedyLoop (remaining : ℚ) : List Order → ℚ → List Order × ℚ
  | [], running => ([], running)
  | o :: rest, running =>
    if running + o.amount ≤ remaining then
      let r := greedyLoop remaining rest (running + o.amount)
      (o :: r.1, r.2)
    else greedyLoop remaining rest running

/-- The specification wording of the greedy pass, as a relation between the
candidate list and the selected list: walking the candidates in the given
order with a running total, each candidate is accepted exactly when adding
its amount keeps the running total within the remaining budget, and skipped
exactly when it would overflow. -/
inductive GreedyRel (remaining : ℚ) : ℚ → List Order → List Order → Prop
  | nil (running : ℚ) : GreedyRel remaining running [] []
  | keep {running : ℚ} {o : Order} {l sel : List Order} :
      running + o.amount ≤ remaining →
      GreedyRel remaining (running + o.amount) l sel →
      GreedyRel remaining running (o :: l) (o :: sel)
  | skip {running : ℚ} {o : Order} {l sel : List Order} :
      ¬ running + o.amount ≤ remaining →
      GreedyRel remaining running l sel →
      GreedyRel remaining running (o :: l) sel

/-- validateBatchExecution (content.js:481-501): if the whole batch fits the
remaining budget select it all, otherwise run the single greedy pass. -/
def validateBatchExecution (orders : List Order) (maxBudget totalSpent : ℚ) :
    BatchSelection :=
  let remainingBudget := maxBudget - totalSpent
  let batchTotal := sumAmounts orders
  if batchTotal ≤ remainingBudget then
    ⟨orders, batchTotal⟩
  else
    let r := greedyLoop remainingBudget orders 0
    ⟨r.1, r.2⟩

/-- The field updates markOrderExecuted (content.js:429-439) performs on the
found order: status, executedPrice, filledAt always; the vault reference
fields only when a vault order was captured. -/
def execUpdate (o : Order) (price : ℚ) (now : ℕ) (vault : Option VaultRef) :
    Order :=
  match vault with
  | none =>
    { o with
        status := OrderStatus.executed
        executedPrice := some price
        filledAt := some now }
  | some v =>
    { o with
        status := OrderStatus.executed
        executedPrice := some price
        filledAt := some now
        vaultOrderId := some v.orderId
        vaultOrderUrl := v.detailsUrl }

/-- markOrderExecuted (content.js:426-445): find the first order with the
given id and update it in place; if no order has that id, do nothing.  The
sampled vault reference and the clock reading are passed in as parameters. -/
def markOrderExecuted (orders : List Order) (oid : String) (price : ℚ)
    (now : ℕ) (vault : Option VaultRef) : List Order :=
  match orders with
  | [] => []
  | o :: rest =>
    if o.id = oid then execUpdate o price now vault :: rest
    else o :: markOrderExecuted rest oid price now vault

/-- The loop at content.js:745-747: mark every order of the batch executed
at the single execution price. -/
def markBatchExecuted (orders : List Order) (batch : List Order) (price : ℚ)
    (now : ℕ) (vault : Option VaultRef) : List Order :=
  batch.foldl (fun os o => markOrderExecuted os o.id price now vault) orders

/-- removeOrder (content.js:414-424): findIndex by id then splice(index, 1),
i.e. delete the first order with the given id; no-op when the id is absent.
Note the source checks only the id, not the order status. -/
def removeOrder (orders : List Order) (oid : String) : List Order :=
  match orders with
  | [] => []
  | o :: rest => if o.id = oid then rest else o :: removeOrder rest oid

/-- The order object built by addOrder (content.js:400-405). -/
def newOrder (id : String) (targetPrice amount : ℚ) : Order :=
  { id := id, targetPrice := targetPrice, amount := amount,
    status := OrderStatus.pending }

/-- addOrder (content.js:399-412): push the new pending order and return
it.  The generated id is a parameter of the model. -/
def addOrder (orders : List Order) (id : String) (targetPrice amount : ℚ) :
    List Order × Order :=
  (orders ++ [newOrder id targetPrice amount], newOrder id targetPrice amount)

/-- Result of the Add Order click handler: either a rejection (the order
collection unchanged) or the appended collection with the new order. -/
inductive AddResult
  | rejected (orders : List Order)
  | added (orders : List Order) (newOrd : Order)
deriving DecidableEq

/-- The Add Order click handler (content.js:1382-1428), which performs the
validation the spec attributes to the add operation: it rejects when the max
budget is unconfigured, when target price or amount is nonpositive, when the
amount is below the 25 minimum, or when the current price is readable and
the target price exceeds it; otherwise it calls addOrder.  The two inputs
are modelled as already-parsed numbers (the handler also rejects empty input
fields, which have no counterpart for numeric inputs). -/
def addOrderClick (orders : List Order) (maxBudget : ℚ)
    (currentPrice : Option ℚ) (id : String) (targetPrice amount : ℚ) :
    AddResult :=
  if maxBudget ≤ 0 then AddResult.rejected orders
  else if targetPrice ≤ 0 ∨ amount ≤ 0 then AddResult.rejected orders
  else if amount < 25 then AddResult.rejected orders
  else
    match currentPrice with
    | some p =>
      if p < targetPrice then AddResult.rejected orders
      else AddResult.added (addOrder orders id targetPrice amount).1
        (addOrder orders id targetPrice amount).2
    | none =>
      AddResult.added (addOrder orders id targetPrice amount).1
        (addOrder orders id targetPrice amount).2

/-- The mutable STATE object of the content script (content.js:76-83)
together with the persisted order collection (settings.orders). -/
structure SysState where
  orders : List Order
  buyProcessStarted : Bool
  currentStep : ℕ
  totalSpent : ℚ
  ordersExecuted : ℕ
  isRunning : Bool
  currentOrderIndex : Option (List String)
deriving DecidableEq

/-- Outcome of one batch execution attempt: each of the three interaction
steps (executeStep1/2/3) either succeeds or throws (element not found,
timeout waiting for a button or dialog). -/
inductive BatchOutcome
  | failedStep1
  | failedStep2
  | failedStep3
  | success
deriving DecidableEq

/-- executeBatchBuyProcess (content.js:692-770) as a function from the
pre-state and the stage outcomes to the post-state.  The early returns at
content.js:693-701 guard on isRunning and buyProcessStarted.  On success all
batch orders are marked executed at the single execution price and the
counters are bumped (content.js:744-751); on any step failure the catch
block only logs.  The finally block (content.js:761-765) clears
buyProcessStarted, currentStep and currentOrderIndex in every non-early
return case. -/
def executeBatchBuyProcess (s : SysState) (batch : List Order)
    (executionPrice : ℚ) (outcome : BatchOutcome) (now : ℕ)
    (vault : Option VaultRef) : SysState :=
  if !s.isRunning then s
  else if s.buyProcessStarted then s
  else
    match outcome with
    | BatchOutcome.success =>
      { s with
          orders := markBatchExecuted s.orders batch executionPrice now vault
          ordersExecuted := s.ordersExecuted + batch.length
          totalSpent := s.totalSpent + sumAmounts batch
          buyProcessStarted := false
          currentStep := 0
          currentOrderIndex := none }
    | _ =>
      { s with
          buyProcessStarted := false
          currentStep := 0
          currentOrderIndex := none }

/-- Result of init (content.js:1446-1522): the rebuilt STATE and whether a
checkPriceAndBuy was scheduled (the setTimeout at content.js:1498 or
content.js:1510). -/
structure InitResult where
  state : SysState
  resumesCheck : Bool
deriving DecidableEq

/-- init (content.js:1446-1522) restricted to the state logic: totalSpent is
always recomputed from the executed orders (content.js:1470), isRunning is
restored from the persisted flag (content.js:1474-1477), and the two resume
branches (content.js:1491-1511) both leave buyProcessStarted false and
currentStep 0 and schedule a price check; the order collection is loaded
from storage unchanged. -/
def initContent (orders : List Order) (wasRunning wasBuying : Bool) :
    InitResult :=
  let base : SysState :=
    { orders := orders
      buyProcessStarted := false
      currentStep := 0
      totalSpent := calculateTotalSpent orders
      ordersExecuted := (getExecutedOrders orders).length
      isRunning := wasRunning
      currentOrderIndex := none }
  if wasRunning && !wasBuying then ⟨base, true⟩
  else if wasBuying then ⟨base, true⟩
  else ⟨base, false⟩

/-- Events of the in-flight interleaving model.  tickStart and startAct are
a scheduled tick (checkPriceAndBuy, content.js:775) and an explicit start
action (startMonitoring, content.js:868) whose guards pass so that an
execution attempt is launched; tickIdle is a tick that does not launch one
(guard failed, no executable orders, price unreadable and so on); advance is
a stage transition inside the running attempt; settle is the attempt
reaching its finally block, by completion or failure. -/
inductive ExecEvent
  | tickStart
  | tickIdle
  | startAct
  | advance
  | settle
deriving DecidableEq

/-- Abstract in-flight state: the buyProcessStarted flag and the number of
execution attempts currently inside a numbered stage. -/
structure ExecState where
  buyProcessStarted : Bool
  staged : ℕ
deriving DecidableEq

/-- One event of the interleaving model.  Both launch events test
buyProcessStarted before starting, mirroring the guards at content.js:698
(executeBatchBuyProcess entry) and content.js:781 (checkPriceAndBuy); the
test and the flag set are not separated by any await in the source, so they
are a single step here.  This is an overapproximation of the source: launch
events may fire at any time, not only when orders are executable. -/
def execStep (s : ExecState) : ExecEvent → ExecState
  | ExecEvent.tickStart =>
    if s.buyProcessStarted then s
    else { buyProcessStarted := true, staged := s.staged + 1 }
  | ExecEvent.startAct =>
    if s.buyProcessStarted then s
    else { buyProcessStarted := true, staged := s.staged + 1 }
  | ExecEvent.tickIdle => s
  | ExecEvent.advance => s
  | ExecEvent.settle =>
    if s.buyProcessStarted then
      { buyProcessStarted := false, staged := s.staged - 1 }
    else s

/-- Run the interleaving model from the initial state (flag clear, nothing
staged). -/
def execRun (evs : List ExecEvent) : ExecState :=
  evs.foldl execStep ⟨false, 0⟩

/-- The pair the budget checks operate on: the persisted order collection
and the running counter STATE.totalSpent. -/
structure Ledger where
  orders : List Order
  totalSpentCounter : ℚ
deriving DecidableEq

/-- The three order-store operations exactly as the claim lists them:
addOrder (content.js:399), markOrderExecuted (content.js:426) and
removeOrder (content.js:414).  None of them touches STATE.totalSpent; the
counter is only incremented inside executeBatchBuyProcess
(content.js:750). -/
inductive StoreOp
  | add (id : String) (targetPrice amount : ℚ)
  | markExecuted (id : String) (price : ℚ) (now : ℕ) (vault : Option VaultRef)
  | remove (id : String)

/-- Effect of one store operation on the ledger. -/
def applyStoreOp (s : Ledger) : StoreOp → Ledger
  | StoreOp.add id t a => { s with orders := (addOrder s.orders id t a).1 }
  | StoreOp.markExecuted id p n v =>
    { s with orders := markOrderExecuted s.orders id p n v }
  | StoreOp.remove id => { s with orders := removeOrder s.orders id }

/-- The operations as the running system actually performs them: adding an
order (content.js:399), removing an order (content.js:414), and completing
a batch execution, which marks every batch order executed and adds the
combined batch amount to STATE.totalSpent (content.js:744-751). -/
inductive SysOp
  | add (id : String) (targetPrice amount : ℚ)
  | remove (id : String)
  | batchComplete (batch : List Order) (price : ℚ) (now : ℕ)
      (vault : Option VaultRef)

/-- Effect of one system-level operation on the ledger. -/
def applySysOp (s : Ledger) : SysOp → Ledger
  | SysOp.add id t a => { s with orders := (addOrder s.orders id t a).1 }
  | SysOp.remove id => { s with orders := removeOrder s.orders id }
  | SysOp.batchComplete batch p n v =>
    { orders := markBatchExecuted s.orders batch p n v
      totalSpentCounter := s.totalSpentCounter + sumAmounts batch }

/-- Side conditions under which the running system issues an operation:
ids of added orders are fresh (generateOrderId), removals target pending
orders (the remove button is only rendered for pending rows,
content.js:1027-1057), and a completed batch consists of distinct pending
orders of the collection (it came from findExecutableOrders). -/
def admissibleOp (s : Ledger) : SysOp → Prop
  | SysOp.add id _ _ => id ∉ s.orders.map Order.id
  | SysOp.remove id => ∀ o ∈ s.orders, o.id = id → o.status = OrderStatus.pending
  | SysOp.batchComplete batch _ _ _ =>
    (batch.map Order.id).Nodup ∧
      ∀ b ∈ batch, b ∈ s.orders ∧ b.status = OrderStatus.pending

/-- A sequence of operations each admissible in the state it runs in. -/
inductive AdmissibleSeq : Ledger → List SysOp → Prop
  | nil (s : Ledger) : AdmissibleSeq s []
  | cons {s : Ledger} {op : SysOp} {ops : List SysOp} :
      admissibleOp s op → AdmissibleSeq (applySysOp s op) ops →
      AdmissibleSeq s (op :: ops)

/-! Concrete orders for the section 8 scenario of the spec: targets 3.20,
3.10 and 3.00 dollars, 100 dollars each.  The fractional prices are written
with the raw rational constructor (29/10 for 2.90 and so on) so that they
evaluate by kernel reduction. -/

/-- The scenario price 2.90, as the reduced fraction 29/10. -/
def p290 : ℚ := ⟨29, 10, by decide, by decide⟩

/-- The scenario target 3.10, as the reduced fraction 31/10. -/
def p310 : ℚ := ⟨31, 10, by decide, by decide⟩

/-- The scenario target 3.20, as the reduced fraction 16/5. -/
def p320 : ℚ := ⟨16, 5, by decide, by decide⟩

/-- Scenario order with target price 3.20. -/
def demoO320 : Order := newOrder "o320" p320 100

/-- Scenario order with target price 3.10. -/
def demoO310 : Order := newOrder "o310" p310 100

/-- Scenario order with target price 3.00. -/
def demoO300 : Order := newOrder "o300" 3 100

/-- The scenario order collection, in insertion order. -/
def demoOrders : List Order := [demoO320, demoO310, demoO300]

/-- The scenario pre-state: three pending orders, nothing spent, running. -/
def demoState : SysState :=
  { orders := demoOrders
    buyProcessStarted := false
    currentStep := 0
    totalSpent := 0
    ordersExecuted := 0
    isRunning := true
    currentOrderIndex := none }

/-- An already-executed order, used in the counterexamples about repeated
execution marking and removal of executed orders. -/
def demoExecuted : Order :=
  { id := "x1", targetPrice := 3, amount := 100,
    status := OrderStatus.executed, executedPrice := some p290,
    filledAt := some 5 }

/-! ### Helper lemmas about sums of amounts -/

theorem foldl_add_amount (l : List Order) (init : ℚ) :
    l.foldl (fun sum o => sum + o.amount) init = init + sumAmounts l := by
  induction l generalizing init with
  | nil => simp [sumAmounts]
  | cons o rest ih =>
    simp only [List.foldl_cons, sumAmounts] at ih ⊢
    rw [ih (init + o.amount), ih (0 + o.amount)]
    ring

theorem sumAmounts_cons (o : Order) (l : List Order) :
    sumAmounts (o :: l) = o.amount + sumAmounts l := by
  show (o :: l).foldl (fun sum o => sum + o.amount) 0 = _
  rw [List.foldl_cons, foldl_add_amount]
  ring

theorem sumAmounts_nonneg {l : List Order} (h : ∀ o ∈ l, 25 ≤ o.amount) :
    0 ≤ sumAmounts l := by
  induction l with
  | nil => simp [sumAmounts]
  | cons o rest ih =>
    rw [sumAmounts_cons]
    have h1 : 25 ≤ o.amount := h o (List.mem_cons_self o rest)
    have h2 : 0 ≤ sumAmounts rest := ih fun x hx => h x (List.mem_cons_of_mem o hx)
    linarith

theorem sumAmounts_eq_sum_map (l : List Order) :
    sumAmounts l = (l.map Order.amount).sum := by
  induction l with
  | nil => simp [sumAmounts]
  | cons o rest ih => rw [sumAmounts_cons, List.map_cons, List.sum_cons, ih]

/-! ### Helper lemmas about the greedy loop -/

theorem greedyLoop_sublist (rem : ℚ) :
    ∀ (l : List Order) (run : ℚ), List.Sublist (greedyLoop rem l run).1 l := by
  intro l
  induction l with
  | nil => intro run; simp [greedyLoop]
  | cons o rest ih =>
    intro run
    by_cases h : run + o.amount ≤ rem
    · simpa [greedyLoop, h] using List.Sublist.cons₂ o (ih (run + o.amount))
    · simpa [greedyLoop, h] using List.Sublist.cons o (ih run)

theorem greedyLoop_total (rem : ℚ) :
    ∀ (l : List Order) (run : ℚ),
      (greedyLoop rem l run).2 = run + sumAmounts (greedyLoop rem l run).1 := by
  intro l
  induction l with
  | nil => intro run; simp [greedyLoop, sumAmounts]
  | cons o rest ih =>
    intro run
    by_cases h : run + o.amount ≤ rem
    · simp only [greedyLoop, if_pos h]
      rw [ih (run + o.amount), sumAmounts_cons]
      ring
    · simp only [greedyLoop, if_neg h]
      exact ih run

theorem greedyLoop_le (rem : ℚ) :
    ∀ (l : List Order) (run : ℚ), run ≤ rem → (greedyLoop rem l run).2 ≤ rem := by
  intro l
  induction l with
  | nil => intro run hrun; simpa [greedyLoop] using hrun
  | cons o rest ih =>
    intro run hrun
    by_cases h : run + o.amount ≤ rem
    · simpa [greedyLoop, h] using ih (run + o.amount) h
    · simpa [greedyLoop, h] using ih run hrun

theorem greedyLoop_empty_of_exhausted (rem : ℚ) (hrem : rem ≤ 0) :
    ∀ (l : List Order), (∀ o ∈ l, 25 ≤ o.amount) →
      ∀ run : ℚ, 0 ≤ run → (greedyLoop rem l run).1 = [] := by
  intro l
  induction l with
  | nil => intro _ run _; simp [greedyLoop]
  | cons o rest ih =>
    intro hmin run hrun
    have h1 : 25 ≤ o.amount := hmin o (List.mem_cons_self o rest)
    have h : ¬ run + o.amount ≤ rem := by linarith
    simpa [greedyLoop, h] using
      ih (fun x hx => hmin x (List.mem_cons_of_mem o hx)) run hrun

theorem greedyLoop_rel (rem : ℚ) :
    ∀ (l : List Order) (run : ℚ), GreedyRel rem run l (greedyLoop rem l run).1 := by
  intro l
  induction l with
  | nil => intro run; exact GreedyRel.nil run
  | cons o rest ih =>
    intro run
    by_cases h : run + o.amount ≤ rem
    · simpa [greedyLoop, h] using GreedyRel.keep h (ih (run + o.amount))
    · simpa [greedyLoop, h] using GreedyRel.skip h (ih run)

/-- C1: for every candidate list (of orders satisfying the data-model
minimum-amount invariant), maxBudget and alreadySpent, with
remaining = maxBudget - alreadySpent, validateBatchExecution returns the
whole candidate list with its total when the sum of all amounts fits the
remaining budget; otherwise its selection is the single greedy pass in the
given order, accepting each candidate exactly when adding its amount keeps
the running total within the remaining budget (GreedyRel, which also means
no candidate is skipped unless it would overflow at its turn); the selection
is always a subsequence of the candidates, its reported total is the sum of
the selected amounts and stays within a nonnegative remaining budget; zero
candidates give an empty result, and a nonpositive remaining budget gives an
empty result. -/
theorem selectBatch_correct (orders : List Order) (maxBudget totalSpent : ℚ)
    (hmin : ∀ o ∈ orders, 25 ≤ o.amount) :
    (sumAmounts orders ≤ maxBudget - totalSpent →
      validateBatchExecution orders maxBudget totalSpent =
        ⟨orders, sumAmounts orders⟩) ∧
    (¬ sumAmounts orders ≤ maxBudget - totalSpent →
      GreedyRel (maxBudget - totalSpent) 0 orders
        (validateBatchExecution orders maxBudget totalSpent).orders) ∧
    List.Sublist (validateBatchExecution orders maxBudget totalSpent).orders orders ∧
    (validateBatchExecution orders maxBudget totalSpent).totalAmount =
      sumAmounts (validateBatchExecution orders maxBudget totalSpent).orders ∧
    (0 ≤ maxBudget - totalSpent →
      (validateBatchExecution orders maxBudget totalSpent).totalAmount ≤
        maxBudget - totalSpent) ∧
    (orders = [] →
      (validateBatchExecution orders maxBudget totalSpent).orders = []) ∧
    (maxBudget - totalSpent ≤ 0 →
      (validateBatchExecution orders maxBudget totalSpent).orders = []) := by
  have hv : validateBatchExecution orders maxBudget totalSpent =
      if sumAmounts orders ≤ maxBudget - totalSpent then
        ⟨orders, sumAmounts orders⟩
      else
        ⟨(greedyLoop (maxBudget - totalSpent) orders 0).1,
          (greedyLoop (maxBudget - totalSpent) orders 0).2⟩ := rfl
  by_cases hfit : sumAmounts orders ≤ maxBudget - totalSpent
  · rw [hv, if_pos hfit]
    refine ⟨fun _ => rfl, fun h => absurd hfit h, List.Sublist.refl orders,
      rfl, fun _ => hfit, fun h => h, fun hneg => ?_⟩
    cases orders with
    | nil => rfl
    | cons o rest =>
      exfalso
      have h1 : 25 ≤ o.amount := hmin o (List.mem_cons_self o rest)
      have h2 : 0 ≤ sumAmounts rest :=
        sumAmounts_nonneg fun x hx => hmin x (List.mem_cons_of_mem o hx)
      rw [sumAmounts_cons] at hfit
      linarith
  · rw [hv, if_neg hfit]
    refine ⟨fun h => absurd h hfit, fun _ => greedyLoop_rel _ orders 0,
      greedyLoop_sublist _ orders 0, ?_, fun hpos => ?_, fun h => ?_,
      fun hneg => ?_⟩
    · rw [greedyLoop_total]
      ring
    · exact greedyLoop_le _ orders 0 hpos
    · subst h; rfl
    · exact greedyLoop_empty_of_exhausted _ hneg orders hmin 0 le_rfl

/-- Witness for selectBatch_correct at the section 8 budget-250 scenario
inputs. -/
theorem selectBatch_correct_witness :
    List.Sublist (validateBatchExecution demoOrders 250 0).orders demoOrders ∧
    (validateBatchExecution demoOrders 250 0).totalAmount =
      sumAmounts (validateBatchExecution demoOrders 250 0).orders :=
  ⟨(selectBatch_correct demoOrders 250 0 (by decide)).2.2.1,
    (selectBatch_correct demoOrders 250 0 (by decide)).2.2.2.1⟩

/-! ### Helper lemmas about the sorted executable-order view -/

theorem filterKey_orderedInsert (q : ℚ) (a : Order) (l : List Order) :
    List.filter (fun o => decide (o.targetPrice = q))
        (List.orderedInsert leTarget a l) =
      if a.targetPrice = q then
        a :: List.filter (fun o => decide (o.targetPrice = q)) l
      else List.filter (fun o => decide (o.targetPrice = q)) l := by
  induction l with
  | nil =>
    simp only [List.orderedInsert, List.filter]
    by_cases ha : a.targetPrice = q <;> simp [ha]
  | cons b rest ih =>
    by_cases hab : leTarget a b
    · simp only [List.orderedInsert, if_pos hab, List.filter_cons]
      by_cases ha : a.targetPrice = q <;> simp [ha]
    · have hab2 : ¬ a.targetPrice ≤ b.targetPrice := hab
      have hbq : a.targetPrice = q → ¬ b.targetPrice = q := by
        intro ha hb
        exact hab2 (le_of_eq (by rw [ha, hb]))
      simp only [List.orderedInsert, if_neg hab, List.filter_cons]
      by_cases ha : a.targetPrice = q
      · have hb : ¬ b.targetPrice = q := hbq ha
        simp [hb, ih, ha]
      · by_cases hb : b.targetPrice = q <;> simp [hb, ih, ha]

theorem filterKey_insertionSort (q : ℚ) (l : List Order) :
    (l.insertionSort leTarget).filter (fun o => decide (o.targetPrice = q)) =
      l.filter (fun o => decide (o.targetPrice = q)) := by
  induction l with
  | nil => rfl
  | cons a rest ih =>
    show (List.orderedInsert leTarget a
        (rest.insertionSort leTarget)).filter _ = _
    rw [filterKey_orderedInsert, List.filter_cons]
    by_cases ha : a.targetPrice = q <;> simp [ha, ih]

/-- C2: for every order collection and current price, findExecutableOrders
returns exactly the orders with status pending whose target price the
current price has reached (its output is a permutation of that filter, so
in particular it never contains an order whose target is below the current
price), the output is sorted ascending by target price, and ties in target
price keep the original insertion order: for each price level, the output
restricted to that target price equals the original list filtered to the
executable orders at that target price. -/
theorem findExecutable_correct (currentPrice : ℚ) (orders : List Order) :
    (findExecutableOrders currentPrice orders).Perm
        (orders.filter (isExecutable currentPrice)) ∧
    (∀ o ∈ findExecutableOrders currentPrice orders,
        o.status = OrderStatus.pending ∧ currentPrice ≤ o.targetPrice ∧
          ¬ o.targetPrice < currentPrice) ∧
    (findExecutableOrders currentPrice orders).Sorted leTarget ∧
    (∀ q : ℚ,
        (findExecutableOrders currentPrice orders).filter
            (fun o => decide (o.targetPrice = q)) =
          orders.filter (fun o =>
            isExecutable currentPrice o && decide (o.targetPrice = q))) := by
  refine ⟨List.perm_insertionSort leTarget _, fun o ho => ?_,
    List.sorted_insertionSort leTarget _, fun q => ?_⟩
  · rw [findExecutableOrders, List.mem_insertionSort, List.mem_filter,
      isExecutable] at ho
    obtain ⟨-, hexec⟩ := ho
    simp only [Bool.and_eq_true, decide_eq_true_eq] at hexec
    exact ⟨hexec.1, hexec.2, not_lt.mpr hexec.2⟩
  · rw [findExecutableOrders, filterKey_insertionSort, List.filter_filter]
    exact List.filter_congr fun o _ => Bool.and_comm _ _

/-- Witness for findExecutable_correct at the section 8 scenario price and
order collection. -/
theorem findExecutable_correct_witness :
    (findExecutableOrders p290 demoOrders).Sorted leTarget ∧
    (findExecutableOrders p290 demoOrders).Perm
      (demoOrders.filter (isExecutable p290)) :=
  ⟨(findExecutable_correct p290 demoOrders).2.2.1,
    (findExecutable_correct p290 demoOrders).1⟩

/-! ### Helper lemmas about marking orders executed -/

theorem execUpdate_id (o : Order) (p : ℚ) (n : ℕ) (v : Option VaultRef) :
    (execUpdate o p n v).id = o.id := by cases v <;> rfl

theorem execUpdate_amount (o : Order) (p : ℚ) (n : ℕ) (v : Option VaultRef) :
    (execUpdate o p n v).amount = o.amount := by cases v <;> rfl

theorem execUpdate_status (o : Order) (p : ℚ) (n : ℕ) (v : Option VaultRef) :
    (execUpdate o p n v).status = OrderStatus.executed := by cases v <;> rfl

theorem execUpdate_price (o : Order) (p : ℚ) (n : ℕ) (v : Option VaultRef) :
    (execUpdate o p n v).executedPrice = some p := by cases v <;> rfl

theorem execUpdate_filledAt (o : Order) (p : ℚ) (n : ℕ) (v : Option VaultRef) :
    (execUpdate o p n v).filledAt = some n := by cases v <;> rfl

theorem execUpdate_idem (o : Order) (p : ℚ) (n : ℕ) (v : Option VaultRef) :
    execUpdate (execUpdate o p n v) p n v = execUpdate o p n v := by
  cases v <;> rfl

theorem markOrderExecuted_map {orders : List Order}
    (hnd : (orders.map Order.id).Nodup) (oid : String) (p : ℚ) (n : ℕ)
    (v : Option VaultRef) :
    markOrderExecuted orders oid p n v =
      orders.map (fun o => if o.id = oid then execUpdate o p n v else o) := by
  induction orders with
  | nil => rfl
  | cons o rest ih =>
    rw [List.map_cons, List.nodup_cons] at hnd
    by_cases h : o.id = oid
    · simp only [markOrderExecuted, if_pos h, List.map_cons]
      congr 1
      have hmem : ∀ x ∈ rest,
          (if x.id = oid then execUpdate x p n v else x) = x := by
        intro x hx
        have hxid : x.id ≠ oid := by
          intro he
          have hin : x.id ∈ rest.map Order.id :=
            List.mem_map_of_mem Order.id hx
          rw [he, ← h] at hin
          exact hnd.1 hin
        rw [if_neg hxid]
      exact ((List.map_congr_left hmem).trans (List.map_id' rest)).symm
    · simp only [markOrderExecuted, if_neg h, List.map_cons]
      congr 1
      exact ih hnd.2

theorem markOrderExecuted_ids (orders : List Order) (oid : String) (p : ℚ)
    (n : ℕ) (v : Option VaultRef) :
    (markOrderExecuted orders oid p n v).map Order.id =
      orders.map Order.id := by
  induction orders with
  | nil => rfl
  | cons o rest ih =>
    by_cases h : o.id = oid <;>
      simp [markOrderExecuted, h, execUpdate_id, ih]

theorem markBatchExecuted_map {orders : List Order}
    (hnd : (orders.map Order.id).Nodup) (batch : List Order) (p : ℚ) (n : ℕ)
    (v : Option VaultRef) :
    markBatchExecuted orders batch p n v =
      orders.map (fun o =>
        if o.id ∈ batch.map Order.id then execUpdate o p n v else o) := by
  induction batch generalizing orders with
  | nil =>
    show orders = _
    refine (List.map_id'' ?_ orders).symm
    intro x
    simp
  | cons b bs ih =>
    show markBatchExecuted (markOrderExecuted orders b.id p n v) bs p n v = _
    have hnd2 : ((markOrderExecuted orders b.id p n v).map Order.id).Nodup := by
      rw [markOrderExecuted_ids]; exact hnd
    rw [ih hnd2, markOrderExecuted_map hnd, List.map_map]
    refine List.map_congr_left ?_
    intro o _
    by_cases h1 : o.id = b.id
    · by_cases h2 : o.id ∈ bs.map Order.id <;>
        simp [Function.comp, h1, h2, execUpdate_id, execUpdate_idem,
          List.mem_cons]
    · by_cases h2 : o.id ∈ bs.map Order.id <;>
        simp [Function.comp, h1, h2, List.mem_cons]

/-- C4: when a batch execution completes all three stages successfully,
every order of the batch is marked executed with executedPrice equal to the
single price sampled at batch start, whatever its own target price (the
statement does not constrain the price, so it covers fills strictly below
target); and in the section 8 scenario with targets 3.20, 3.10, 3.00, 100
dollars each, budget 300 and price 2.90, the selection is all three in
ascending target order with total 300, and after the successful execution
all three orders are executed at price 2.90. -/
theorem batch_success_marks_all (s : SysState) (batch : List Order)
    (price : ℚ) (now : ℕ) (vault : Option VaultRef)
    (hrun : s.isRunning = true) (hflag : s.buyProcessStarted = false)
    (hnd : (s.orders.map Order.id).Nodup)
    (hin : ∀ b ∈ batch, b ∈ s.orders) :
    (∀ o ∈ (executeBatchBuyProcess s batch price BatchOutcome.success now
        vault).orders,
      o.id ∈ batch.map Order.id →
        o.status = OrderStatus.executed ∧ o.executedPrice = some price) ∧
    (∀ b ∈ batch,
      ∃ o ∈ (executeBatchBuyProcess s batch price BatchOutcome.success now
          vault).orders,
        o.id = b.id ∧ o.status = OrderStatus.executed ∧
          o.executedPrice = some price) ∧
    (findExecutableOrders p290 demoOrders =
        [demoO300, demoO310, demoO320] ∧
      validateBatchExecution [demoO300, demoO310, demoO320] 300 0 =
        ⟨[demoO300, demoO310, demoO320], 300⟩ ∧
      ∀ o ∈ (executeBatchBuyProcess demoState [demoO300, demoO310, demoO320]
          p290 BatchOutcome.success 0 none).orders,
        o.status = OrderStatus.executed ∧ o.executedPrice = some p290) := by
  have hexec : (executeBatchBuyProcess s batch price BatchOutcome.success now
      vault).orders = markBatchExecuted s.orders batch price now vault := by
    simp [executeBatchBuyProcess, hrun, hflag]
  rw [hexec, markBatchExecuted_map hnd]
  refine ⟨?_, ?_, of_decide_eq_true (by with_unfolding_all rfl)⟩
  · intro o ho hid
    obtain ⟨x, hx, hxo⟩ := List.mem_map.mp ho
    by_cases h : x.id ∈ batch.map Order.id
    · rw [if_pos h] at hxo
      rw [← hxo]
      exact ⟨execUpdate_status x price now vault,
        execUpdate_price x price now vault⟩
    · rw [if_neg h] at hxo
      rw [← hxo] at hid
      exact absurd hid h
  · intro b hb
    have hbin : b.id ∈ batch.map Order.id := List.mem_map_of_mem Order.id hb
    have hmem := List.mem_map_of_mem
      (fun o => if o.id ∈ batch.map Order.id then execUpdate o price now vault
        else o) (hin b hb)
    have hbeq : (if b.id ∈ batch.map Order.id then
        execUpdate b price now vault else b) = execUpdate b price now vault :=
      if_pos hbin
    refine ⟨execUpdate b price now vault, ?_, execUpdate_id b price now vault,
      execUpdate_status b price now vault, execUpdate_price b price now vault⟩
    rw [← hbeq]
    exact hmem

/-- Witness for batch_success_marks_all at the section 8 scenario inputs:
the order with target 3.00 is filled at the sampled price 2.90. -/
theorem batch_success_marks_all_witness :
    (execUpdate demoO300 p290 0 none).status = OrderStatus.executed ∧
    (execUpdate demoO300 p290 0 none).executedPrice = some p290 :=
  (batch_success_marks_all demoState [demoO300, demoO310, demoO320] p290
    0 none rfl rfl (by decide) (by decide)).1
    (execUpdate demoO300 p290 0 none) (by decide) (by decide)

/-- C5: a batch execution attempt that fails at any stage changes no order
(the collection, and in particular its pending subset, is untouched, so the
batch orders remain pending and re-selectable on the next cycle), clears the
in-flight flag and the stage progress, and leaves the spent total
unchanged. -/
theorem batch_failure_atomic (s : SysState) (batch : List Order) (price : ℚ)
    (now : ℕ) (vault : Option VaultRef) (outcome : BatchOutcome)
    (hrun : s.isRunning = true) (hflag : s.buyProcessStarted = false)
    (hfail : outcome ≠ BatchOutcome.success) :
    (executeBatchBuyProcess s batch price outcome now vault).orders =
      s.orders ∧
    (executeBatchBuyProcess s batch price outcome now
      vault).buyProcessStarted = false ∧
    (executeBatchBuyProcess s batch price outcome now vault).currentStep = 0 ∧
    (executeBatchBuyProcess s batch price outcome now
      vault).currentOrderIndex = none ∧
    (executeBatchBuyProcess s batch price outcome now vault).totalSpent =
      s.totalSpent ∧
    getPendingOrders
        (executeBatchBuyProcess s batch price outcome now vault).orders =
      getPendingOrders s.orders := by
  cases outcome with
  | success => exact absurd rfl hfail
  | failedStep1 => simp [executeBatchBuyProcess, hrun, hflag]
  | failedStep2 => simp [executeBatchBuyProcess, hrun, hflag]
  | failedStep3 => simp [executeBatchBuyProcess, hrun, hflag]

/-- Witness for batch_failure_atomic: a stage 2 timeout in the section 8
scenario leaves the orders untouched and the in-flight flag clear. -/
theorem batch_failure_atomic_witness :
    (executeBatchBuyProcess demoState [demoO300, demoO310, demoO320] p290
      BatchOutcome.failedStep2 0 none).orders = demoState.orders ∧
    (executeBatchBuyProcess demoState [demoO300, demoO310, demoO320] p290
      BatchOutcome.failedStep2 0 none).buyProcessStarted = false :=
  ⟨(batch_failure_atomic demoState [demoO300, demoO310, demoO320] p290 0
      none BatchOutcome.failedStep2 rfl rfl (by decide)).1,
    (batch_failure_atomic demoState [demoO300, demoO310, demoO320] p290 0
      none BatchOutcome.failedStep2 rfl rfl (by decide)).2.1⟩

/-- C6: after init, whatever the persisted flags were, the in-flight flag is
clear, the stage counter is zero and the order collection (hence its pending
subset) is exactly what was persisted — so an interrupted execution is never
resumed mid-stage and its orders stay pending; when the persisted state
showed a stage in progress a price check is still scheduled (monitoring
resumes), and when it showed running with no stage in progress, the running
flag is restored and a price check is scheduled without any user action; the
spent total is recomputed from the executed orders. -/
theorem init_recovery (orders : List Order) (wasRunning wasBuying : Bool) :
    ((initContent orders wasRunning wasBuying).state.buyProcessStarted =
        false ∧
      (initContent orders wasRunning wasBuying).state.currentStep = 0 ∧
      (initContent orders wasRunning wasBuying).state.orders = orders ∧
      getPendingOrders
          (initContent orders wasRunning wasBuying).state.orders =
        getPendingOrders orders) ∧
    (wasBuying = true →
      (initContent orders wasRunning wasBuying).resumesCheck = true) ∧
    (wasRunning = true → wasBuying = false →
      (initContent orders wasRunning wasBuying).state.isRunning = true ∧
      (initContent orders wasRunning wasBuying).resumesCheck = true) ∧
    (initContent orders wasRunning wasBuying).state.totalSpent =
      calculateTotalSpent orders := by
  cases wasRunning <;> cases wasBuying <;>
    simp [initContent]

/-- Witness for init_recovery: a restart with a persisted in-flight stage
clears the flag and schedules a price check. -/
theorem init_recovery_witness :
    (initContent demoOrders true true).state.buyProcessStarted = false ∧
    (initContent demoOrders true true).resumesCheck = true :=
  ⟨(init_recovery demoOrders true true).1.1,
    (init_recovery demoOrders true true).2.1 rfl⟩

/-! ### Helper lemmas for the in-flight interleaving model -/

theorem execStep_inv (s : ExecState) (e : ExecEvent)
    (h : s.staged = if s.buyProcessStarted then 1 else 0) :
    (execStep s e).staged =
      if (execStep s e).buyProcessStarted then 1 else 0 := by
  cases e <;> by_cases hb : s.buyProcessStarted <;>
    simp [execStep, hb] <;> simp [hb] at h <;> simp [h]

theorem execFoldl_inv :
    ∀ (evs : List ExecEvent) (s : ExecState),
      s.staged = (if s.buyProcessStarted then 1 else 0) →
      (evs.foldl execStep s).staged =
        if (evs.foldl execStep s).buyProcessStarted then 1 else 0 := by
  intro evs
  induction evs with
  | nil => intro s h; exact h
  | cons e rest ih =>
    intro s h
    exact ih (execStep s e) (execStep_inv s e h)

/-- C7: across every interleaving of scheduled ticks, explicit start
actions, stage advances and settlements, at most one execution attempt is
in a numbered stage at any time, and an attempt is staged exactly when the
in-flight flag buyProcessStarted is set — the flag test at the tick handler
and at execution entry prevents a second attempt from starting while one is
in flight. -/
theorem at_most_one_in_flight (evs : List ExecEvent) :
    (execRun evs).staged ≤ 1 ∧
    ((execRun evs).buyProcessStarted = true ↔ (execRun evs).staged = 1) := by
  have h := execFoldl_inv evs ⟨false, 0⟩ (by simp)
  rw [execRun]
  constructor
  · rw [h]
    by_cases hb : (evs.foldl execStep ⟨false, 0⟩).buyProcessStarted <;>
      simp [hb]
  · by_cases hb : (evs.foldl execStep ⟨false, 0⟩).buyProcessStarted <;>
      simp [hb] at h ⊢ <;> simp [h]

/-- Witness for at_most_one_in_flight on a concrete interleaving: a tick
that launches an attempt, a second tick and a start action while it is in
flight, an advance, then settlement and a relaunch. -/
theorem at_most_one_in_flight_witness :
    (execRun [ExecEvent.tickStart, ExecEvent.tickStart, ExecEvent.startAct,
      ExecEvent.advance, ExecEvent.settle, ExecEvent.tickStart]).staged ≤ 1 :=
  (at_most_one_in_flight [ExecEvent.tickStart, ExecEvent.tickStart,
    ExecEvent.startAct, ExecEvent.advance, ExecEvent.settle,
    ExecEvent.tickStart]).1

/-! ### Helper lemmas about the executed-amount sum -/

theorem executedAmountSum_cons (o : Order) (l : List Order) :
    executedAmountSum (o :: l) =
      (if o.status = OrderStatus.executed then o.amount else 0) +
        executedAmountSum l := by
  by_cases h : o.status = OrderStatus.executed <;>
    simp [executedAmountSum, List.filter_cons, h]

theorem calculateTotalSpent_eq_executedAmountSum (orders : List Order) :
    calculateTotalSpent orders = executedAmountSum orders := by
  rw [calculateTotalSpent, sumAmounts_eq_sum_map]
  rfl

theorem executedAmountSum_append_pending (l : List Order) (o : Order)
    (h : o.status = OrderStatus.pending) :
    executedAmountSum (l ++ [o]) = executedAmountSum l := by
  simp [executedAmountSum, List.filter_append, List.filter_cons, h]

theorem removeOrder_sum_of_pending {orders : List Order} {oid : String}
    (hp : ∀ o ∈ orders, o.id = oid → o.status = OrderStatus.pending) :
    executedAmountSum (removeOrder orders oid) = executedAmountSum orders := by
  induction orders with
  | nil => rfl
  | cons o rest ih =>
    by_cases h : o.id = oid
    · have hpend : o.status = OrderStatus.pending :=
        hp o (List.mem_cons_self o rest) h
      simp only [removeOrder, if_pos h]
      rw [executedAmountSum_cons, hpend]
      simp
    · simp only [removeOrder, if_neg h]
      rw [executedAmountSum_cons, executedAmountSum_cons,
        ih fun x hx hxid => hp x (List.mem_cons_of_mem o hx) hxid]

theorem removeOrder_ids_sublist (orders : List Order) (oid : String) :
    List.Sublist ((removeOrder orders oid).map Order.id)
      (orders.map Order.id) := by
  induction orders with
  | nil => exact List.Sublist.refl _
  | cons o rest ih =>
    by_cases h : o.id = oid
    · simp only [removeOrder, if_pos h, List.map_cons]
      exact List.sublist_cons_self o.id (rest.map Order.id)
    · simp only [removeOrder, if_neg h, List.map_cons]
      exact List.Sublist.cons₂ o.id ih

theorem markOrderExecuted_sum {orders : List Order}
    (hnd : (orders.map Order.id).Nodup) {b : Order} (hb : b ∈ orders)
    (hbp : b.status = OrderStatus.pending) (p : ℚ) (n : ℕ)
    (v : Option VaultRef) :
    executedAmountSum (markOrderExecuted orders b.id p n v) =
      executedAmountSum orders + b.amount := by
  induction orders with
  | nil => exact absurd hb (List.not_mem_nil b)
  | cons o rest ih =>
    rw [List.map_cons, List.nodup_cons] at hnd
    by_cases h : o.id = b.id
    · have hob : o = b := by
        rcases List.mem_cons.mp hb with h1 | h1
        · exact h1.symm
        · exfalso
          have hm : b.id ∈ rest.map Order.id :=
            List.mem_map_of_mem Order.id h1
          rw [← h] at hm
          exact hnd.1 hm
      simp only [markOrderExecuted, if_pos h]
      rw [executedAmountSum_cons, executedAmountSum_cons]
      simp only [execUpdate_status, execUpdate_amount, hob, hbp]
      simp
      ring
    · have hbrest : b ∈ rest := by
        rcases List.mem_cons.mp hb with h1 | h1
        · exact absurd (congrArg Order.id h1).symm h
        · exact h1
      simp only [markOrderExecuted, if_neg h]
      rw [executedAmountSum_cons, executedAmountSum_cons, ih hnd.2 hbrest]
      ring

theorem markBatchExecuted_ids (orders batch : List Order) (p : ℚ) (n : ℕ)
    (v : Option VaultRef) :
    (markBatchExecuted orders batch p n v).map Order.id =
      orders.map Order.id := by
  induction batch generalizing orders with
  | nil => rfl
  | cons b bs ih =>
    show (markBatchExecuted (markOrderExecuted orders b.id p n v)
      bs p n v).map Order.id = _
    rw [ih, markOrderExecuted_ids]

theorem markBatchExecuted_sum {orders : List Order}
    (hnd : (orders.map Order.id).Nodup) {batch : List Order}
    (hbnd : (batch.map Order.id).Nodup)
    (hin : ∀ b ∈ batch, b ∈ orders ∧ b.status = OrderStatus.pending)
    (p : ℚ) (n : ℕ) (v : Option VaultRef) :
    executedAmountSum (markBatchExecuted orders batch p n v) =
      executedAmountSum orders + sumAmounts batch := by
  induction batch generalizing orders with
  | nil =>
    show executedAmountSum orders = _
    rw [show sumAmounts [] = 0 from rfl, add_zero]
  | cons b bs ih =>
    rw [List.map_cons, List.nodup_cons] at hbnd
    have hb := hin b (List.mem_cons_self b bs)
    show executedAmountSum
      (markBatchExecuted (markOrderExecuted orders b.id p n v) bs p n v) = _
    have hnd2 : ((markOrderExecuted orders b.id p n v).map Order.id).Nodup := by
      rw [markOrderExecuted_ids]
      exact hnd
    have hin2 : ∀ x ∈ bs, x ∈ markOrderExecuted orders b.id p n v ∧
        x.status = OrderStatus.pending := by
      intro x hx
      have hxo := hin x (List.mem_cons_of_mem b hx)
      have hxid : x.id ≠ b.id := by
        intro he
        have hm : x.id ∈ bs.map Order.id := List.mem_map_of_mem Order.id hx
        rw [he] at hm
        exact hbnd.1 hm
      refine ⟨?_, hxo.2⟩
      rw [markOrderExecuted_map hnd]
      have hmm := List.mem_map_of_mem
        (fun o => if o.id = b.id then execUpdate o p n v else o) hxo.1
      have hxeq : (if x.id = b.id then execUpdate x p n v else x) = x :=
        if_neg hxid
      rw [← hxeq]
      exact hmm
    rw [ih hnd2 hbnd.2 hin2, markOrderExecuted_sum hnd hb.1 hb.2 p n v,
      sumAmounts_cons]
    ring

theorem applySysOp_inv {s : Ledger}
    (hc : s.totalSpentCounter = executedAmountSum s.orders)
    (hnd : (s.orders.map Order.id).Nodup)
    {op : SysOp} (hadm : admissibleOp s op) :
    (applySysOp s op).totalSpentCounter =
        executedAmountSum (applySysOp s op).orders ∧
      ((applySysOp s op).orders.map Order.id).Nodup := by
  cases op with
  | add id t a =>
    have hfresh : id ∉ s.orders.map Order.id := hadm
    constructor
    · show s.totalSpentCounter =
        executedAmountSum (s.orders ++ [newOrder id t a])
      rw [executedAmountSum_append_pending _ _ rfl, hc]
    · show ((s.orders ++ [newOrder id t a]).map Order.id).Nodup
      rw [List.map_append]
      simp only [List.nodup_append, List.map_cons, List.map_nil]
      refine ⟨hnd, List.nodup_singleton _, ?_⟩
      intro x hx hx1
      rcases List.mem_singleton.mp hx1 with h
      rw [h] at hx
      exact hfresh hx
  | remove id =>
    have hp : ∀ o ∈ s.orders, o.id = id → o.status = OrderStatus.pending :=
      hadm
    refine ⟨?_, ?_⟩
    · show s.totalSpentCounter = executedAmountSum (removeOrder s.orders id)
      rw [removeOrder_sum_of_pending hp, hc]
    · exact List.Sublist.nodup (removeOrder_ids_sublist s.orders id) hnd
  | batchComplete batch p n v =>
    have hadm2 : (batch.map Order.id).Nodup ∧
        ∀ b ∈ batch, b ∈ s.orders ∧ b.status = OrderStatus.pending := hadm
    refine ⟨?_, ?_⟩
    · show s.totalSpentCounter + sumAmounts batch =
        executedAmountSum (markBatchExecuted s.orders batch p n v)
      rw [markBatchExecuted_sum hnd hadm2.1 hadm2.2 p n v, hc]
    · show ((markBatchExecuted s.orders batch p n v).map Order.id).Nodup
      rw [markBatchExecuted_ids]
      exact hnd

theorem sysOps_inv (ops : List SysOp) :
    ∀ s : Ledger, s.totalSpentCounter = executedAmountSum s.orders →
      (s.orders.map Order.id).Nodup → AdmissibleSeq s ops →
      (ops.foldl applySysOp s).totalSpentCounter =
          executedAmountSum (ops.foldl applySysOp s).orders ∧
        ((ops.foldl applySysOp s).orders.map Order.id).Nodup := by
  induction ops with
  | nil => exact fun s hc hnd _ => ⟨hc, hnd⟩
  | cons op rest ih =>
    intro s hc hnd hseq
    cases hseq with
    | cons hadm hrest =>
      have h := applySysOp_inv hc hnd hadm
      exact ih (applySysOp s op) h.1 h.2 hrest

/-- Counterexample to C3 as stated: running the listed store operations add
then markExecuted from the initial empty state leaves the running counter
STATE.totalSpent at 0 while the recomputed sum over executed orders is 100
— markOrderExecuted does not touch the counter (the counter increment lives
in executeBatchBuyProcess, which is not among the listed operations). -/
theorem totalSpent_counter_counterexample :
    (List.foldl applyStoreOp ⟨[], 0⟩
        [StoreOp.add "a" 3 100,
          StoreOp.markExecuted "a" p290 0 none]).totalSpentCounter = 0 ∧
      calculateTotalSpent
        (List.foldl applyStoreOp ⟨[], 0⟩
          [StoreOp.add "a" 3 100,
            StoreOp.markExecuted "a" p290 0 none]).orders = 100 :=
  of_decide_eq_true (by with_unfolding_all rfl)

/-- C3 (amended): calculateTotalSpent always equals the sum of amount over
the executed orders, and the running counter STATE.totalSpent equals that
sum after every sequence of operations as the running system performs them,
namely add with a fresh id, remove of a pending order, and batch completion
(which marks the batch orders executed and increments the counter by their
combined amount), starting from an init state whose counter is recomputed
from the executed orders; marking an order executed without the batch
counter increment, or removing an executed order, is not among these and
desynchronises the counter. -/
theorem totalSpent_sync (orders0 : List Order) (ops : List SysOp)
    (hnd : (orders0.map Order.id).Nodup)
    (hadm : AdmissibleSeq ⟨orders0, calculateTotalSpent orders0⟩ ops) :
    (ops.foldl applySysOp
        ⟨orders0, calculateTotalSpent orders0⟩).totalSpentCounter =
      calculateTotalSpent
        (ops.foldl applySysOp ⟨orders0, calculateTotalSpent orders0⟩).orders ∧
    calculateTotalSpent
        (ops.foldl applySysOp ⟨orders0, calculateTotalSpent orders0⟩).orders =
      executedAmountSum
        (ops.foldl applySysOp ⟨orders0, calculateTotalSpent orders0⟩).orders := by
  have h := sysOps_inv ops ⟨orders0, calculateTotalSpent orders0⟩
    (calculateTotalSpent_eq_executedAmountSum orders0) hnd hadm
  exact ⟨h.1.trans (calculateTotalSpent_eq_executedAmountSum _).symm,
    calculateTotalSpent_eq_executedAmountSum _⟩

/-- Witness for totalSpent_sync: add one order then complete it as a batch;
the counter agrees with the recomputed total. -/
theorem totalSpent_sync_witness :
    (([SysOp.add "a" 3 100,
        SysOp.batchComplete [newOrder "a" 3 100] p290 0 none]).foldl
          applySysOp ⟨[], calculateTotalSpent []⟩).totalSpentCounter =
      calculateTotalSpent
        (([SysOp.add "a" 3 100,
          SysOp.batchComplete [newOrder "a" 3 100] p290 0 none]).foldl
            applySysOp ⟨[], calculateTotalSpent []⟩).orders := by
  refine (totalSpent_sync [] _ (by decide) ?_).1
  refine AdmissibleSeq.cons ?_ (AdmissibleSeq.cons ?_ (AdmissibleSeq.nil _))
  · show ("a" : String) ∉ (([] : List Order).map Order.id)
    decide
  · exact ⟨by decide, by decide⟩

/-! ### Add Order validation -/

theorem getPendingOrders_append_pending (l : List Order) (o : Order)
    (h : o.status = OrderStatus.pending) :
    getPendingOrders (l ++ [o]) = getPendingOrders l ++ [o] := by
  simp [getPendingOrders, List.filter_append, List.filter_cons, h]

/-- Counterexample to C8 as stated: with the budget unconfigured
(maxBudget = 0) the Add Order handler rejects a valid order (target price 1
not above the current price 2, amount 25) instead of appending it. -/
theorem addOrder_budget_counterexample :
    addOrderClick [] 0 (some 2) "a" 1 25 = AddResult.rejected [] := by
  decide

/-- C8 (amended): the Add Order flow rejects, leaving the order collection
unchanged, whenever the amount is below 25, the target price is
nonpositive, or the current price is readable and below the target; and
whenever additionally the max budget is configured (positive), every valid
input — positive target price, amount at least 25, target not above the
readable current price — appends exactly one new pending order to the
collection (so the pending view gains exactly that order) and returns
it. -/
theorem addOrder_validation (orders : List Order) (maxBudget : ℚ)
    (currentPrice : Option ℚ) (id : String) (targetPrice amount : ℚ) :
    ((amount < 25 ∨ targetPrice ≤ 0 ∨
        (∃ p, currentPrice = some p ∧ p < targetPrice)) →
      addOrderClick orders maxBudget currentPrice id targetPrice amount =
        AddResult.rejected orders) ∧
    (0 < maxBudget → 0 < targetPrice → 25 ≤ amount →
      (∀ p, currentPrice = some p → targetPrice ≤ p) →
      addOrderClick orders maxBudget currentPrice id targetPrice amount =
          AddResult.added (orders ++ [newOrder id targetPrice amount])
            (newOrder id targetPrice amount) ∧
        getPendingOrders (orders ++ [newOrder id targetPrice amount]) =
          getPendingOrders orders ++ [newOrder id targetPrice amount] ∧
        (newOrder id targetPrice amount).status = OrderStatus.pending) := by
  constructor
  · intro h
    unfold addOrderClick
    split_ifs with h0 h1 h2
    · rfl
    · rfl
    · rfl
    · rcases h with ha | ht | ⟨p, hp, hlt⟩
      · exact absurd ha h2
      · exact absurd (Or.inl ht) h1
      · rw [hp]
        exact if_pos hlt
  · intro hb ht ha hp
    have h1 : ¬ maxBudget ≤ 0 := not_le.mpr hb
    have h2 : ¬ (targetPrice ≤ 0 ∨ amount ≤ 0) := by
      push_neg
      exact ⟨ht, by linarith⟩
    have h3 : ¬ amount < 25 := not_lt.mpr ha
    refine ⟨?_, getPendingOrders_append_pending orders _ rfl, rfl⟩
    unfold addOrderClick
    rw [if_neg h1, if_neg h2, if_neg h3]
    cases currentPrice with
    | none => rfl
    | some p =>
      have hple : ¬ p < targetPrice := not_lt.mpr (hp p rfl)
      exact if_neg hple

/-- Witness for addOrder_validation: with budget 300, price 2, target 1 and
amount 25, the order is appended as pending. -/
theorem addOrder_validation_witness :
    addOrderClick [] 300 (some 2) "a" 1 25 =
        AddResult.added ([] ++ [newOrder "a" 1 25]) (newOrder "a" 1 25) ∧
      (newOrder "a" 1 25).status = OrderStatus.pending := by
  have h := (addOrder_validation [] 300 (some 2) "a" 1 25).2 (by decide)
    (by decide) (by decide) ?_
  · exact ⟨h.1, h.2.2⟩
  · intro p hpp
    injection hpp with hp2
    rw [← hp2]
    decide

/-! ### markOrderExecuted behavior -/

/-- Counterexample to C9 as stated: marking the already executed order
demoExecuted again (same id, a different price) is neither an error nor a
no-op — it mutates the order, overwriting executedPrice and filledAt. -/
theorem markExecuted_counterexample :
    markOrderExecuted [demoExecuted] "x1" 3 7 none ≠ [demoExecuted] := by
  decide

/-- C9 (amended): markOrderExecuted is a silent no-op, leaving all orders
unchanged, when no order with the given id exists (no InvalidStateError is
raised anywhere); when an order with the id exists, the first such order
has status set to executed and executedPrice, filledAt (and the external
reference when a vault order is visible) overwritten, regardless of its
previous status — so the fields are set on the pending-to-executed
transition, but a repeated call mutates them again. -/
theorem markExecuted_behavior (orders : List Order) (oid : String) (p : ℚ)
    (n : ℕ) (v : Option VaultRef) :
    ((∀ o ∈ orders, o.id ≠ oid) →
      markOrderExecuted orders oid p n v = orders) ∧
    (∀ l1 o l2, orders = l1 ++ o :: l2 → (∀ x ∈ l1, x.id ≠ oid) →
      o.id = oid →
      markOrderExecuted orders oid p n v = l1 ++ execUpdate o p n v :: l2) ∧
    (∀ o : Order, (execUpdate o p n v).status = OrderStatus.executed ∧
      (execUpdate o p n v).executedPrice = some p ∧
      (execUpdate o p n v).filledAt = some n ∧
      (execUpdate o p n v).id = o.id ∧
      (execUpdate o p n v).amount = o.amount) := by
  refine ⟨?_, ?_, fun o => ⟨execUpdate_status o p n v,
    execUpdate_price o p n v, execUpdate_filledAt o p n v,
    execUpdate_id o p n v, execUpdate_amount o p n v⟩⟩
  · intro h
    induction orders with
    | nil => rfl
    | cons o rest ih =>
      have ho : o.id ≠ oid := h o (List.mem_cons_self o rest)
      simp only [markOrderExecuted, if_neg ho]
      rw [ih fun x hx => h x (List.mem_cons_of_mem o hx)]
  · intro l1 o l2 hsplit hl1 ho
    subst hsplit
    induction l1 with
    | nil => simp only [List.nil_append, markOrderExecuted, if_pos ho]
    | cons x rest ih =>
      have hx : x.id ≠ oid := hl1 x (List.mem_cons_self x rest)
      simp only [List.cons_append, markOrderExecuted, if_neg hx,
        List.append_eq]
      rw [ih fun y hy => hl1 y (List.mem_cons_of_mem x hy)]

/-- Witness for markExecuted_behavior: an unknown id leaves the collection
untouched. -/
theorem markExecuted_behavior_witness :
    markOrderExecuted [demoExecuted] "zz" 3 7 none = [demoExecuted] :=
  (markExecuted_behavior [demoExecuted] "zz" 3 7 none).1 (by decide)

/-! ### removeOrder behavior -/

/-- Counterexample to C10 as stated: removeOrder deletes the executed order
demoExecuted — the source checks only the id, never the status. -/
theorem remove_executed_counterexample :
    removeOrder [demoExecuted] "x1" = [] ∧
      demoExecuted.status = OrderStatus.executed := by
  decide

/-- C10 (amended): remove is a silent no-op when no order has the given id;
when an order with the id exists, the first such order is deleted from the
collection regardless of its status (pending or executed alike — the UI
renders a remove button only for pending rows, but the function itself does
not check the status). -/
theorem remove_behavior (orders : List Order) (oid : String) :
    ((∀ o ∈ orders, o.id ≠ oid) → removeOrder orders oid = orders) ∧
    (∀ l1 o l2, orders = l1 ++ o :: l2 → (∀ x ∈ l1, x.id ≠ oid) →
      o.id = oid → removeOrder orders oid = l1 ++ l2) := by
  constructor
  · intro h
    induction orders with
    | nil => rfl
    | cons o rest ih =>
      have ho : o.id ≠ oid := h o (List.mem_cons_self o rest)
      simp only [removeOrder, if_neg ho]
      rw [ih fun x hx => h x (List.mem_cons_of_mem o hx)]
  · intro l1 o l2 hsplit hl1 ho
    subst hsplit
    induction l1 with
    | nil => simp only [List.nil_append, removeOrder, if_pos ho]
    | cons x rest ih =>
      have hx : x.id ≠ oid := hl1 x (List.mem_cons_self x rest)
      simp only [List.cons_append, removeOrder, if_neg hx, List.append_eq]
      rw [ih fun y hy => hl1 y (List.mem_cons_of_mem x hy)]

/-- Witness for remove_behavior: an unknown id leaves the collection
untouched. -/
theorem remove_behavior_witness :
    removeOrder [demoExecuted] "zz" = [demoExecuted] :=
  (remove_behavior [demoExecuted] "zz").1 (by decide)

end XchLimit
